import Mathlib

/-!
Verification of the core simulation engine of the multi-armed bandit value
calculator (`experiments.py`, `util.py`, `app.py`).

The Python code is shallowly embedded:

* randomness (the per-row, per-model `random.betavariate(rewards[i] + 1,
  penalties[i] + 1)` calls and the `rng.binomial` reward cells) is abstracted
  into explicit oracle functions supplying the drawn values, so every theorem
  quantifies over all possible random traces;
* pandas `DataFrame`s become `List (List _)` row tables, a per-step
  `dict`/`Counter` becomes an association list `List (ℕ × ℕ)`;
* the Python lists `rewards` / `penalties` (mutated in place by index
  assignment) become functions `ℕ → ℕ` updated with `Function.update`;
* exact rational arithmetic (`ℚ`) stands for Python floats.
-/

/-- The inner selection scan of `thompson_sampling_experiment`
(`experiments.py` lines 84-91): starting from `bandit = 0`, `beta_max = 0`,
walk the draw list in index order and replace the incumbent only when the
current draw is strictly greater (`if beta_d > beta_max`). `i` is the index
of the head of the remaining list. -/
def selectGo : List ℚ → ℕ → ℕ → ℚ → ℕ
  | [], _, bandit, _ => bandit
  | d :: ds, i, bandit, betaMax =>
    if betaMax < d then selectGo ds (i + 1) i d
    else selectGo ds (i + 1) bandit betaMax

/-- The model selected for one observation row, given the list of sampled
Beta values for that row (`experiments.py` lines 84-91). -/
def selectModel (draws : List ℚ) : ℕ :=
  selectGo draws 0 0 0

/-- The vector of Beta samples drawn for observation row `n`
(`experiments.py` line 88): for each model `i` in index order, the oracle
`betaDraw` supplies the value of `random.betavariate(rewards[i] + 1,
penalties[i] + 1)`. -/
def rowDraws (betaDraw : ℕ → ℕ → ℕ → ℕ → ℚ) (M n : ℕ) (rw pen : ℕ → ℕ) :
    List ℚ :=
  (List.range M).map fun i => betaDraw n i (rw i + 1) (pen i + 1)

/-- The bandit chosen for row `n` of the batch: the selection scan applied to
the row's vector of Beta samples (`experiments.py` lines 84-91). -/
def banditOf (betaDraw : ℕ → ℕ → ℕ → ℕ → ℚ) (M n : ℕ) (rw pen : ℕ → ℕ) : ℕ :=
  selectModel (rowDraws betaDraw M n rw pen)

/-- The state update of `experiments.py` lines 96-99: if the observed reward
cell is 1 the chosen model's reward counter is incremented, otherwise its
penalty counter is. -/
def nextState (bandit reward : ℕ) (rw pen : ℕ → ℕ) : (ℕ → ℕ) × (ℕ → ℕ) :=
  if reward = 1 then (Function.update rw bandit (rw bandit + 1), pen)
  else (rw, Function.update pen bandit (pen bandit + 1))

/-- The observation loop of `thompson_sampling_experiment`
(`experiments.py` lines 83-99): for each row in order, select a bandit from
the current state's Beta samples, record it, read the row's reward cell for
that bandit (`data.values[n, bandit]`), and update the state. Returns
(`model_selected`, `rewards`, `penalties`). `n` is the index of the first
remaining row. -/
def tsLoop (betaDraw : ℕ → ℕ → ℕ → ℕ → ℚ) (M : ℕ) :
    List (List ℕ) → ℕ → (ℕ → ℕ) → (ℕ → ℕ) →
      List ℕ × (ℕ → ℕ) × (ℕ → ℕ)
  | [], _, rw, pen => ([], rw, pen)
  | row :: rest, n, rw, pen =>
    (banditOf betaDraw M n rw pen ::
        (tsLoop betaDraw M rest (n + 1)
          (nextState (banditOf betaDraw M n rw pen)
            (row.getD (banditOf betaDraw M n rw pen) 0) rw pen).1
          (nextState (banditOf betaDraw M n rw pen)
            (row.getD (banditOf betaDraw M n rw pen) 0) rw pen).2).1,
      (tsLoop betaDraw M rest (n + 1)
          (nextState (banditOf betaDraw M n rw pen)
            (row.getD (banditOf betaDraw M n rw pen) 0) rw pen).1
          (nextState (banditOf betaDraw M n rw pen)
            (row.getD (banditOf betaDraw M n rw pen) 0) rw pen).2).2)

/-- `dict(Counter(model_selected))` (`experiments.py` line 101): one key per
distinct selected model, mapped to its number of occurrences. -/
def count_of_model_selected (sel : List ℕ) : List (ℕ × ℕ) :=
  sel.dedup.map fun k => (k, sel.count k)

/-- `thompson_sampling_experiment` (`experiments.py` lines 60-102), with the
Beta samples supplied by the oracle `betaDraw` and the batch given as a list
of rows of length `M` (`M` is the batch's column count). Returns the
selection tally and the final reward / penalty counters. -/
def thompson_sampling_experiment (betaDraw : ℕ → ℕ → ℕ → ℕ → ℚ)
    (data : List (List ℕ)) (M : ℕ) (rw pen : ℕ → ℕ) :
    List (ℕ × ℕ) × (ℕ → ℕ) × (ℕ → ℕ) :=
  (count_of_model_selected (tsLoop betaDraw M data 0 rw pen).1,
    (tsLoop betaDraw M data 0 rw pen).2.1,
    (tsLoop betaDraw M data 0 rw pen).2.2)

/-- The guard of `experiments.py` lines 79-80: the batch's column count is
asserted equal to the length of `model_accuracies` (note: not to the length
of the `rewards`/`penalties` state). -/
def ts_model_check (no_of_models : ℕ) (model_accuracies : List ℚ) : Bool :=
  no_of_models == model_accuracies.length

/-- `control_experiment` (`experiments.py` lines 116-140), with the float
expression `int(np.floor(len(data) * (1 / model_count)))` modelled in exact
arithmetic as natural floor division `len(data) / M`. The dictionary is
initialised to the base count for every model; the remainder
`diff = len(data) - M * base` is then added, one unit each, to keys
`0 .. diff - 1` (in exact arithmetic `diff = len(data) % M < M`, so the
increment loop stays inside the key range and the `if diff != 0` guard is
redundant). Only `len(data)` is read from the batch, never its cells. -/
def control_experiment (data : List (List ℕ)) (M : ℕ) : List (ℕ × ℕ) :=
  ((List.range M).map fun i => (i, data.length / M)).map fun p =>
    if p.1 < data.length - M * (data.length / M) then (p.1, p.2 + 1) else p

/-- One column of `create_simulated_reward_data` per accuracy
(`experiments.py` lines 22-23): `rng.binomial(1, model_accuracies[i],
no_of_rewards)` raises `ValueError` when the probability lies outside
`[0, 1]` or when the requested size is negative; otherwise the oracle
`cells` supplies the column's 0/1 draws. -/
def genColumns (cells : ℕ → List ℕ) (B : ℤ) :
    List ℚ → ℕ → Except String (List (List ℕ))
  | [], _ => .ok []
  | p :: ps, i =>
    if p < 0 ∨ 1 < p then .error "p outside the unit interval"
    else if B < 0 then .error "negative dimensions are not allowed"
    else
      match genColumns cells B ps (i + 1) with
      | .ok cols => .ok ((cells i).take B.toNat :: cols)
      | .error e => .error e

/-- `create_simulated_reward_data` (`experiments.py` lines 7-26): one
binomial column per model accuracy; the function itself performs no
validation, all failures come from the sampler. -/
def create_simulated_reward_data (cells : ℕ → List ℕ)
    (model_accuracies : List ℚ) (no_of_rewards : ℤ) :
    Except String (List (List ℕ)) :=
  genColumns cells no_of_rewards model_accuracies 0

/-- The distinct column labels occurring across a series of per-step
dictionaries: `pd.DataFrame(series)` (`util.py` line 5) gives the table one
column per key appearing in any step. -/
def unionKeys (series : List (List (ℕ × ℕ))) : List ℕ :=
  (series.map (List.map Prod.fst)).flatten.dedup

/-- One normalized table row (`util.py` lines 5-7): each column holds the
step's value for that key, with missing keys filled by `fillna(0)`. -/
def normRow (cols : List ℕ) (step : List (ℕ × ℕ)) : List ℕ :=
  cols.map fun c => (step.lookup c).getD 0

/-- The appended `Totals` row (`util.py` line 8): the column-wise sum of all
time-step rows. -/
def totalsRow (cols : List ℕ) (series : List (List (ℕ × ℕ))) : List ℕ :=
  cols.map fun c => (series.map fun step => ((step.lookup c).getD 0)).sum

/-- `format_as_dataframe` (`util.py` lines 4-9): the normalized table, one
row per time step over the union of all keys, followed by the `Totals`
row. -/
def format_as_dataframe (series : List (List (ℕ × ℕ))) : List (List ℕ) :=
  series.map (normRow (unionKeys series)) ++ [totalsRow (unionKeys series) series]

/-- The rounding used by `Series.round()` (`util.py` line 15): round half to
even, as numpy does. -/
def roundHalfEven (x : ℚ) : ℤ :=
  if x - ⌊x⌋ < 1/2 then ⌊x⌋
  else if 1/2 < x - ⌊x⌋ then ⌊x⌋ + 1
  else if 2 ∣ ⌊x⌋ then ⌊x⌋ else ⌊x⌋ + 1

/-- One cell of the misclassification table (`util.py` line 15):
`(count * (1 - accuracy)).round().astype(int)`. -/
def misclassCell (count : ℕ) (acc : ℚ) : ℤ :=
  roundHalfEven ((count : ℚ) * (1 - acc))

/-- `create_misclassification_df` (`util.py` lines 12-17) on a table whose
`j`-th column carries the model label `cols[j]`: each cell multiplies the
allocated count by one minus that model's accuracy
(`model_accuracies[i]` indexed by the column label) and rounds. -/
def create_misclassification_df (cols : List ℕ) (table : List (List ℕ))
    (accs : List ℚ) : List (List ℤ) :=
  table.map fun row =>
    (List.range cols.length).map fun j =>
      misclassCell (row.getD j 0) (accs.getD (cols.getD j 0) 0)

/-- The per-reward-to-per-request multiplier of `app.py` lines 63 and 68:
`(NO_OF_REQUESTS // NO_OF_MODELS) // NO_OF_REWARDS`, both divisions integer
floor divisions. -/
def scale_factor (total_requests model_count rewards_per_step : ℕ) : ℕ :=
  total_requests / model_count / rewards_per_step

/-- The scaled misclassification table of `app.py` lines 63 / 68: the
misclassification dataframe multiplied elementwise by the scale factor. -/
def scaled_misclassifications (cols : List ℕ) (table : List (List ℕ))
    (accs : List ℚ) (sf : ℕ) : List (List ℤ) :=
  (create_misclassification_df cols table accs).map (List.map fun c => c * sf)

/-- Running prefix sums with accumulator `acc` (`Series.cumsum()`). -/
def cumsumFrom (acc : ℤ) : List ℤ → List ℤ
  | [] => []
  | x :: xs => (acc + x) :: cumsumFrom (acc + x) xs

/-- `app.py` line 78: sum each row of the misclassification table across
models, drop the last (`Totals`) entry, take running sums, and scale by the
cost of failure. -/
def ts_cumsum (table : List (List ℤ)) (cost : ℚ) : List ℚ :=
  (cumsumFrom 0 (table.map List.sum).dropLast).map fun s : ℤ => (s : ℚ) * cost

/-- `app.py` lines 71-72: the headline total, `sum(df.iloc[-1, :])` — the
sum across models of the last row of the scaled misclassification table
(the transformed `Totals` row). -/
def total_misclassifications (cols : List ℕ) (table : List (List ℕ))
    (accs : List ℚ) (sf : ℕ) : ℤ :=
  ((scaled_misclassifications cols table accs sf).getLastD []).sum

/-- The final value of the cumulative series of `app.py` line 78 divided by
the cost of failure: the sum over time steps (Totals row excluded) of the
per-step all-model misclassification totals. -/
def per_step_total (cols : List ℕ) (table : List (List ℕ))
    (accs : List ℚ) (sf : ℕ) : ℤ :=
  (((scaled_misclassifications cols table accs sf).map List.sum).dropLast).sum

lemma selectGo_of_all_le (ds : List ℚ) (i b : ℕ) (m : ℚ)
    (h : ∀ d ∈ ds, d ≤ m) : selectGo ds i b m = b := by
  induction ds generalizing i with
  | nil => rfl
  | cons d ds ih =>
    have hd : ¬ m < d := not_lt.2 (h d (List.mem_cons_self d ds))
    simp only [selectGo, if_neg hd]
    exact ih (i + 1) (fun d' hd' => h d' (List.mem_cons_of_mem _ hd'))

lemma selectGo_bound (ds : List ℚ) (i b : ℕ) (m : ℚ) :
    selectGo ds i b m = b ∨ ∃ j, j < ds.length ∧ selectGo ds i b m = i + j := by
  induction ds generalizing i b m with
  | nil => exact Or.inl rfl
  | cons d ds ih =>
    by_cases hd : m < d
    · simp only [selectGo, if_pos hd]
      rcases ih (i + 1) i d with h | ⟨j, hj, hje⟩
      · exact Or.inr ⟨0, Nat.succ_pos _, by simpa using h⟩
      · exact Or.inr ⟨j + 1, by simpa using hj, by omega⟩
    · simp only [selectGo, if_neg hd]
      rcases ih (i + 1) b m with h | ⟨j, hj, hje⟩
      · exact Or.inl h
      · exact Or.inr ⟨j + 1, by simpa using hj, by omega⟩

lemma selectGo_first_argmax (ds : List ℚ) :
    ∀ (i b : ℕ) (m : ℚ), (∃ d ∈ ds, m < d) →
    ∃ j, j < ds.length ∧ selectGo ds i b m = i + j ∧ m < ds.getD j 0 ∧
      (∀ k, k < ds.length → ds.getD k 0 ≤ ds.getD j 0) ∧
      (∀ k, k < j → ds.getD k 0 < ds.getD j 0) := by
  induction ds with
  | nil => rintro i b m ⟨d, hd, -⟩; exact absurd hd (List.not_mem_nil d)
  | cons d ds ih =>
    intro i b m hex
    by_cases hd : m < d
    · simp only [selectGo, if_pos hd]
      by_cases hmax : ∃ d' ∈ ds, d < d'
      · obtain ⟨j, hj, hje, hjlt, hjmax, hjfirst⟩ := ih (i + 1) i d hmax
        refine ⟨j + 1, by simpa using hj, by omega, ?_, ?_, ?_⟩
        · simpa using hd.trans hjlt
        · intro k hk
          match k with
          | 0 => simpa using le_of_lt hjlt
          | k + 1 =>
            simp only [List.getD_cons_succ]
            exact hjmax k (by simpa using hk)
        · intro k hk
          match k with
          | 0 => simpa using hjlt
          | k + 1 =>
            simp only [List.getD_cons_succ]
            exact hjfirst k (by omega)
      · push_neg at hmax
        rw [selectGo_of_all_le ds (i + 1) i d (fun d' hd' => hmax d' hd')]
        refine ⟨0, Nat.succ_pos _, by omega, by simpa using hd, ?_, ?_⟩
        · intro k hk
          match k with
          | 0 => simp
          | k + 1 =>
            simp only [List.getD_cons_succ, List.getD_cons_zero]
            have hk' : k < ds.length := by simpa using hk
            exact hmax _ (List.getD_eq_getElem ds 0 hk' ▸ List.getElem_mem hk')
        · intro k hk; omega
    · simp only [selectGo, if_neg hd]
      have hex' : ∃ d' ∈ ds, m < d' := by
        obtain ⟨d', hd', hlt⟩ := hex
        rcases List.mem_cons.1 hd' with rfl | hmem
        · exact absurd hlt hd
        · exact ⟨d', hmem, hlt⟩
      obtain ⟨j, hj, hje, hjlt, hjmax, hjfirst⟩ := ih (i + 1) b m hex'
      have hdm : d ≤ m := not_lt.1 hd
      refine ⟨j + 1, by simpa using hj, by omega, by simpa using hjlt, ?_, ?_⟩
      · intro k hk
        match k with
        | 0 =>
          simp only [List.getD_cons_succ, List.getD_cons_zero]
          exact le_of_lt (lt_of_le_of_lt hdm hjlt)
        | k + 1 =>
          simp only [List.getD_cons_succ]
          exact hjmax k (by simpa using hk)
      · intro k hk
        match k with
        | 0 =>
          simp only [List.getD_cons_succ, List.getD_cons_zero]
          exact lt_of_le_of_lt hdm hjlt
        | k + 1 =>
          simp only [List.getD_cons_succ]
          exact hjfirst k (by omega)

lemma selectModel_first_argmax (draws : List ℚ) (hne : draws ≠ [])
    (hnn : ∀ d ∈ draws, 0 ≤ d) :
    selectModel draws < draws.length ∧
      (∀ k, k < draws.length →
        draws.getD k 0 ≤ draws.getD (selectModel draws) 0) ∧
      (∀ k, k < selectModel draws →
        draws.getD k 0 < draws.getD (selectModel draws) 0) := by
  by_cases hpos : ∃ d ∈ draws, (0 : ℚ) < d
  · obtain ⟨j, hj, hje, -, hjmax, hjfirst⟩ :=
      selectGo_first_argmax draws 0 0 0 hpos
    have hsel : selectModel draws = j := by simpa [selectModel] using hje
    exact ⟨hsel ▸ hj, fun k hk => hsel ▸ hjmax k hk, fun k hk =>
      hsel ▸ hjfirst k (hsel ▸ hk)⟩
  · push_neg at hpos
    have hz : ∀ d ∈ draws, d = 0 := fun d hd =>
      le_antisymm (hpos d hd) (hnn d hd)
    have hsel : selectModel draws = 0 :=
      selectGo_of_all_le draws 0 0 0 (fun d hd => le_of_eq (hz d hd))
    have hlen : 0 < draws.length := List.length_pos.2 hne
    have hget : ∀ k, k < draws.length → draws.getD k 0 = 0 := fun k hk =>
      hz _ (List.getD_eq_getElem draws 0 hk ▸ List.getElem_mem hk)
    refine ⟨hsel ▸ hlen, fun k hk => ?_, fun k hk => ?_⟩
    · rw [hget k hk, hsel, hget 0 hlen]
    · rw [hsel] at hk; omega

lemma rowDraws_getD (betaDraw : ℕ → ℕ → ℕ → ℕ → ℚ) (M n : ℕ)
    (rw pen : ℕ → ℕ) (k : ℕ) (hk : k < M) :
    (rowDraws betaDraw M n rw pen).getD k 0 =
      betaDraw n k (rw k + 1) (pen k + 1) := by
  rw [rowDraws, List.getD_eq_getElem _ _ (by simpa using hk)]
  simp

lemma length_rowDraws (betaDraw : ℕ → ℕ → ℕ → ℕ → ℚ) (M n : ℕ)
    (rw pen : ℕ → ℕ) : (rowDraws betaDraw M n rw pen).length = M := by
  simp [rowDraws]

/-- **C1.** In each observation row, the Thompson Sampling allocator selects
the model whose Beta(reward_count+1, penalty_count+1) sample is strictly
greatest, scanning models in index order and replacing the incumbent only on
a strictly greater draw: the selected index is in range, its sample is a
maximum of the row's samples, and every model of lower index has a strictly
smaller sample (so on a tie the lowest-index model attaining the maximum
wins). -/
theorem selectModel_selects_first_argmax
    (betaDraw : ℕ → ℕ → ℕ → ℕ → ℚ) (M n : ℕ) (rw pen : ℕ → ℕ)
    (hM : 0 < M)
    (hnn : ∀ i, 0 ≤ betaDraw n i (rw i + 1) (pen i + 1)) :
    selectModel (rowDraws betaDraw M n rw pen) < M ∧
      (∀ k, k < M →
        betaDraw n k (rw k + 1) (pen k + 1) ≤
          betaDraw n (selectModel (rowDraws betaDraw M n rw pen))
            (rw (selectModel (rowDraws betaDraw M n rw pen)) + 1)
            (pen (selectModel (rowDraws betaDraw M n rw pen)) + 1)) ∧
      (∀ k, k < selectModel (rowDraws betaDraw M n rw pen) →
        betaDraw n k (rw k + 1) (pen k + 1) <
          betaDraw n (selectModel (rowDraws betaDraw M n rw pen))
            (rw (selectModel (rowDraws betaDraw M n rw pen)) + 1)
            (pen (selectModel (rowDraws betaDraw M n rw pen)) + 1)) := by
  have hne : rowDraws betaDraw M n rw pen ≠ [] := by
    intro h
    have := length_rowDraws betaDraw M n rw pen
    rw [h] at this
    simp at this
    omega
  have hnn' : ∀ d ∈ rowDraws betaDraw M n rw pen, 0 ≤ d := by
    intro d hd
    obtain ⟨i, -, rfl⟩ := List.mem_map.1 hd
    exact hnn i
  obtain ⟨hlt, hmax, hfirst⟩ := selectModel_first_argmax _ hne hnn'
  rw [length_rowDraws] at hlt hmax
  refine ⟨hlt, fun k hk => ?_, fun k hk => ?_⟩
  · have := hmax k hk
    rwa [rowDraws_getD _ _ _ _ _ _ hk, rowDraws_getD _ _ _ _ _ _ hlt] at this
  · have := hfirst k hk
    rwa [rowDraws_getD _ _ _ _ _ _ (hk.trans hlt),
      rowDraws_getD _ _ _ _ _ _ hlt] at this

/-- Witness for C1 at a concrete input: two models whose draws are the model
indices cast to rationals, so model 1's draw is strictly greatest. -/
theorem selectModel_selects_first_argmax_witness :
    selectModel (rowDraws (fun _ i _ _ => (i : ℚ)) 2 0 (fun _ => 0)
        (fun _ => 0)) < 2 ∧
      (∀ k : ℕ, k < 2 →
        (k : ℚ) ≤
          (selectModel (rowDraws (fun _ i _ _ => (i : ℚ)) 2 0 (fun _ => 0)
            (fun _ => 0)) : ℚ)) ∧
      (∀ k, k < selectModel (rowDraws (fun _ i _ _ => (i : ℚ)) 2 0
          (fun _ => 0) (fun _ => 0)) →
        (k : ℚ) <
          (selectModel (rowDraws (fun _ i _ _ => (i : ℚ)) 2 0 (fun _ => 0)
            (fun _ => 0)) : ℚ)) :=
  selectModel_selects_first_argmax (fun _ i _ _ => (i : ℚ)) 2 0 (fun _ => 0)
    (fun _ => 0) (by decide) (fun i => Nat.cast_nonneg i)

lemma nextState_sum (bandit reward : ℕ) (rw pen : ℕ → ℕ) (i : ℕ) :
    (nextState bandit reward rw pen).1 i + (nextState bandit reward rw pen).2 i
      = rw i + pen i + (if i = bandit then 1 else 0) := by
  rcases eq_or_ne i bandit with rfl | hi
  · unfold nextState
    split <;> simp [Function.update_same] <;> omega
  · unfold nextState
    split <;> simp [Function.update_noteq hi]

/-- **C2.** Selection-count conservation: over one Thompson Sampling step,
for every model `i`, the final `rewards i + penalties i` exceeds the initial
one by exactly the number of observation rows in which model `i` was
selected — each row increments exactly one counter of exactly the selected
model. -/
theorem ts_counter_conservation (betaDraw : ℕ → ℕ → ℕ → ℕ → ℚ) (M : ℕ)
    (data : List (List ℕ)) (n : ℕ) (rw pen : ℕ → ℕ) (i : ℕ) :
    (tsLoop betaDraw M data n rw pen).2.1 i +
        (tsLoop betaDraw M data n rw pen).2.2 i =
      rw i + pen i + (tsLoop betaDraw M data n rw pen).1.count i := by
  induction data generalizing n rw pen with
  | nil => simp [tsLoop]
  | cons row rest ih =>
    simp only [tsLoop, List.count_cons, beq_iff_eq]
    rw [ih, nextState_sum]
    rcases eq_or_ne i (banditOf betaDraw M n rw pen) with h | h
    · simp [h]
      omega
    · simp [h, Ne.symm h]

lemma tsLoop_length_selected (betaDraw : ℕ → ℕ → ℕ → ℕ → ℚ) (M : ℕ)
    (data : List (List ℕ)) (n : ℕ) (rw pen : ℕ → ℕ) :
    (tsLoop betaDraw M data n rw pen).1.length = data.length := by
  induction data generalizing n rw pen with
  | nil => rfl
  | cons row rest ih => simp [tsLoop, ih]

/-- **C3.** The AllocationCounts returned by the Thompson Sampling allocator
have values summing exactly to the number of observation rows of the
batch. -/
theorem ts_allocation_counts_sum (betaDraw : ℕ → ℕ → ℕ → ℕ → ℚ)
    (data : List (List ℕ)) (M : ℕ) (rw pen : ℕ → ℕ) :
    (((thompson_sampling_experiment betaDraw data M rw pen).1).map
        Prod.snd).sum = data.length := by
  show (((count_of_model_selected (tsLoop betaDraw M data 0 rw pen).1)).map
      Prod.snd).sum = data.length
  unfold count_of_model_selected
  rw [List.map_map]
  have h : (Prod.snd ∘ fun k => (k, (tsLoop betaDraw M data 0 rw pen).1.count k))
      = fun k => (tsLoop betaDraw M data 0 rw pen).1.count k := rfl
  rw [h, List.sum_map_count_dedup_eq_length, tsLoop_length_selected]

lemma control_experiment_eq (data : List (List ℕ)) (M : ℕ) :
    control_experiment data M =
      (List.range M).map fun i =>
        (i, data.length / M + if i < data.length % M then 1 else 0) := by
  unfold control_experiment
  rw [List.map_map]
  apply List.map_congr_left
  intro i _
  have hmod : data.length % M = data.length - M * (data.length / M) := by
    have := Nat.div_add_mod data.length M
    omega
  by_cases h : i < data.length - M * (data.length / M) <;>
    simp [Function.comp, h, hmod]

lemma sum_range_base_ite (a r : ℕ) : ∀ n : ℕ,
    ((List.range n).map fun i => a + if i < r then 1 else 0).sum
      = n * a + min r n := by
  intro n
  induction n with
  | zero => simp
  | succ n ih =>
    rw [List.range_succ, List.map_append, List.sum_append, ih, Nat.succ_mul]
    by_cases h : n < r <;> simp [h] <;> omega

lemma control_getD (data : List (List ℕ)) (M i : ℕ) (h : i < M) :
    (control_experiment data M).getD i (0, 0) =
      (i, data.length / M + if i < data.length % M then 1 else 0) := by
  rw [control_experiment_eq,
    List.getD_eq_getElem _ _ (by simpa using h)]
  simp

/-- **C4.** The Control allocator gives every model the base count
`⌊B/M⌋`, adds `1` for each of the first `B % M = B - M*⌊B/M⌋` model
indices, ignores the reward cells, sums to `B`, keeps any two counts within
`1` of each other, and on `B = 10`, `M = 3` returns `{0: 4, 1: 3, 2: 3}`. -/
theorem control_allocation_spec (data : List (List ℕ)) (M : ℕ)
    (hM : 1 ≤ M) :
    control_experiment data M =
        ((List.range M).map fun i =>
          (i, data.length / M + if i < data.length % M then 1 else 0)) ∧
      ((control_experiment data M).map Prod.snd).sum = data.length ∧
      (∀ i j, i < M → j < M →
        ((control_experiment data M).getD i (0, 0)).2 ≤
          ((control_experiment data M).getD j (0, 0)).2 + 1) ∧
      (∀ data' : List (List ℕ), data'.length = data.length →
        control_experiment data' M = control_experiment data M) ∧
      control_experiment (List.replicate 10 ([] : List ℕ)) 3 =
        [(0, 4), (1, 3), (2, 3)] := by
  refine ⟨control_experiment_eq data M, ?_, ?_, ?_, by decide⟩
  · rw [control_experiment_eq, List.map_map]
    have h : (Prod.snd ∘ fun i =>
        (i, data.length / M + if i < data.length % M then 1 else 0)) =
        fun i => data.length / M + if i < data.length % M then 1 else 0 := rfl
    rw [h, sum_range_base_ite]
    have h2 := Nat.div_add_mod data.length M
    have h3 : data.length % M < M := Nat.mod_lt _ hM
    rw [Nat.min_eq_left h3.le]
    exact h2
  · intro i j hi hj
    rw [control_getD data M i hi, control_getD data M j hj]
    by_cases h1 : i < data.length % M <;> by_cases h2 : j < data.length % M <;>
      simp [h1, h2] <;> omega
  · intro data' hlen
    unfold control_experiment
    rw [hlen]

/-- Witness for C4 at `B = 10`, `M = 3`. -/
theorem control_allocation_spec_witness :
    control_experiment (List.replicate 10 ([] : List ℕ)) 3 =
        ((List.range 3).map fun i =>
          (i, (List.replicate 10 ([] : List ℕ)).length / 3 +
            if i < (List.replicate 10 ([] : List ℕ)).length % 3 then 1
            else 0)) ∧
      ((control_experiment (List.replicate 10 ([] : List ℕ)) 3).map
          Prod.snd).sum = (List.replicate 10 ([] : List ℕ)).length ∧
      (∀ i j, i < 3 → j < 3 →
        ((control_experiment (List.replicate 10 ([] : List ℕ)) 3).getD i
            (0, 0)).2 ≤
          ((control_experiment (List.replicate 10 ([] : List ℕ)) 3).getD j
            (0, 0)).2 + 1) ∧
      (∀ data' : List (List ℕ),
        data'.length = (List.replicate 10 ([] : List ℕ)).length →
        control_experiment data' 3 =
          control_experiment (List.replicate 10 ([] : List ℕ)) 3) ∧
      control_experiment (List.replicate 10 ([] : List ℕ)) 3 =
        [(0, 4), (1, 3), (2, 3)] :=
  control_allocation_spec (List.replicate 10 ([] : List ℕ)) 3 (by decide)

lemma banditOf_lt (betaDraw : ℕ → ℕ → ℕ → ℕ → ℚ) (M n : ℕ)
    (rw pen : ℕ → ℕ) (hM : 0 < M) : banditOf betaDraw M n rw pen < M := by
  unfold banditOf selectModel
  rcases selectGo_bound (rowDraws betaDraw M n rw pen) 0 0 0 with h | ⟨j, hj, hje⟩
  · rw [h]; exact hM
  · rw [hje]
    simpa [length_rowDraws] using hj

lemma tsLoop_selected_lt (betaDraw : ℕ → ℕ → ℕ → ℕ → ℚ) (M : ℕ)
    (data : List (List ℕ)) (n : ℕ) (rw pen : ℕ → ℕ) (hM : 0 < M) :
    ∀ k ∈ (tsLoop betaDraw M data n rw pen).1, k < M := by
  induction data generalizing n rw pen with
  | nil => intro k hk; simp [tsLoop] at hk
  | cons row rest ih =>
    intro k hk
    simp only [tsLoop, List.mem_cons] at hk
    rcases hk with rfl | hk
    · exact banditOf_lt betaDraw M n rw pen hM
    · exact ih _ _ _ k hk

/-- **C5 (amended).** The Control allocator's AllocationCounts has keys
covering exactly the model indices `0..N-1`; the Thompson Sampling
allocator's keys are exactly the distinct models actually selected during
the step (each a valid model index when `N ≥ 1`) — a model never selected
in the step is absent from its mapping. -/
theorem allocation_keys_amended :
    (∀ (data : List (List ℕ)) (M : ℕ),
        (control_experiment data M).map Prod.fst = List.range M) ∧
      (∀ (betaDraw : ℕ → ℕ → ℕ → ℕ → ℚ) (data : List (List ℕ)) (M : ℕ)
          (rw pen : ℕ → ℕ),
        ((thompson_sampling_experiment betaDraw data M rw pen).1.map Prod.fst
            = (tsLoop betaDraw M data 0 rw pen).1.dedup) ∧
          (∀ k, k ∈ (thompson_sampling_experiment betaDraw data M rw
              pen).1.map Prod.fst ↔
            k ∈ (tsLoop betaDraw M data 0 rw pen).1) ∧
          (0 < M →
            ∀ k ∈ (thompson_sampling_experiment betaDraw data M rw
              pen).1.map Prod.fst, k < M)) := by
  constructor
  · intro data M
    rw [control_experiment_eq, List.map_map]
    have h : (Prod.fst ∘ fun i =>
        (i, data.length / M + if i < data.length % M then 1 else 0)) = id := by
      funext i; rfl
    rw [h, List.map_id]
  · intro betaDraw data M rw pen
    have hkeys : (thompson_sampling_experiment betaDraw data M rw pen).1.map
        Prod.fst = (tsLoop betaDraw M data 0 rw pen).1.dedup := by
      show (count_of_model_selected (tsLoop betaDraw M data 0 rw pen).1).map
          Prod.fst = (tsLoop betaDraw M data 0 rw pen).1.dedup
      unfold count_of_model_selected
      rw [List.map_map]
      have h : (Prod.fst ∘ fun k =>
          (k, (tsLoop betaDraw M data 0 rw pen).1.count k)) = id := by
        funext k; rfl
      rw [h, List.map_id]
    refine ⟨hkeys, fun k => ?_, fun hM k hk => ?_⟩
    · rw [hkeys]
      exact List.mem_dedup
    · rw [hkeys] at hk
      exact tsLoop_selected_lt betaDraw M data 0 rw pen hM k
        (List.mem_dedup.1 hk)

/-- Counterexample to C5 as stated: with two models, a single observation
row and all Beta draws equal, model 0 is always selected, so model 1 is
absent from the Thompson Sampling AllocationCounts keys. -/
theorem ts_keys_missing_model :
    ¬ (∀ k, k < 2 →
        k ∈ (thompson_sampling_experiment (fun _ _ _ _ => 0) [[1, 1]] 2
          (fun _ => 0) (fun _ => 0)).1.map Prod.fst) := by
  intro h
  have h1 := h 1 (by omega)
  have : (thompson_sampling_experiment (fun _ _ _ _ => 0) [[1, 1]] 2
      (fun _ => 0) (fun _ => 0)).1.map Prod.fst = [0] := by
    show (count_of_model_selected
        (tsLoop (fun _ _ _ _ => 0) 2 [[1, 1]] 0 (fun _ => 0)
          (fun _ => 0)).1).map Prod.fst = [0]
    have hsel : (tsLoop (fun _ _ _ _ => 0) 2 [[1, 1]] 0 (fun _ => 0)
        (fun _ => 0)).1 = [0] := by
      simp only [tsLoop, banditOf, rowDraws, selectModel]
      norm_num [selectGo]
    rw [hsel]
    rfl
  rw [this] at h1
  simp at h1

lemma genColumns_isOk (cells : ℕ → List ℕ) (B : ℤ) :
    ∀ (accs : List ℚ) (i : ℕ),
      (genColumns cells B accs i).isOk = true ↔
        ((∀ p ∈ accs, 0 ≤ p ∧ p ≤ 1) ∧ (accs = [] ∨ 0 ≤ B)) := by
  intro accs
  induction accs with
  | nil =>
    intro i
    constructor
    · intro _
      exact ⟨by simp, Or.inl rfl⟩
    · intro _
      rfl
  | cons p ps ih =>
    intro i
    by_cases hp : p < 0 ∨ 1 < p
    · rw [genColumns, if_pos hp]
      constructor
      · intro h
        exact Bool.noConfusion h
      · rintro ⟨hall, -⟩
        obtain ⟨h0, h1⟩ := hall p (List.mem_cons_self p ps)
        rcases hp with h | h
        · exact absurd h0 (not_le.2 h)
        · exact absurd h1 (not_le.2 h)
    · obtain ⟨hp0, hp1⟩ : 0 ≤ p ∧ p ≤ 1 := by
        rw [not_or, not_lt, not_lt] at hp
        exact hp
      have hpcond : ¬ (p < 0 ∨ 1 < p) :=
        not_or.2 ⟨not_lt.2 hp0, not_lt.2 hp1⟩
      by_cases hB : B < 0
      · rw [genColumns, if_neg hpcond, if_pos hB]
        constructor
        · intro h
          exact Bool.noConfusion h
        · rintro ⟨-, h | h⟩
          · exact absurd h (List.cons_ne_nil p ps)
          · exact absurd h (not_le.2 hB)
      · have hrec := ih (i + 1)
        rw [genColumns, if_neg hpcond, if_neg hB]
        cases hg : genColumns cells B ps (i + 1) with
        | error e =>
          rw [hg] at hrec
          constructor
          · intro h
            exact Bool.noConfusion h
          · rintro ⟨hall, -⟩
            have hps : (∀ q ∈ ps, 0 ≤ q ∧ q ≤ 1) ∧ (ps = [] ∨ 0 ≤ B) :=
              ⟨fun q hq => hall q (List.mem_cons_of_mem p hq),
                Or.inr (not_lt.1 hB)⟩
            have hfalse := hrec.2 hps
            exact Bool.noConfusion hfalse
        | ok cols =>
          rw [hg] at hrec
          constructor
          · intro _
            refine ⟨fun q hq => ?_, Or.inr (not_lt.1 hB)⟩
            rcases List.mem_cons.1 hq with rfl | hq
            · exact ⟨hp0, hp1⟩
            · exact (hrec.1 rfl).1 q hq
          · intro _
            rfl

/-- **C6 (amended).** The reward generator itself performs no validation:
the underlying sampler rejects (with an error) any accuracy outside
`[0, 1]` and any negative batch size, but a batch size of `0` is accepted
and yields an empty batch, so `batch_size < 1` does not always fail; the
Thompson Sampling allocator's guard compares the batch's model count with
the length of `model_accuracies` (not with the number of entries of the
bandit state). -/
theorem validation_amended :
    (∀ (cells : ℕ → List ℕ) (accs : List ℚ) (B : ℤ),
        (create_simulated_reward_data cells accs B).isOk = true ↔
          ((∀ p ∈ accs, 0 ≤ p ∧ p ≤ 1) ∧ (accs = [] ∨ 0 ≤ B))) ∧
      (∀ (M : ℕ) (accs : List ℚ),
        ts_model_check M accs = true ↔ M = accs.length) := by
  constructor
  · intro cells accs B
    exact genColumns_isOk cells B accs 0
  · intro M accs
    simp [ts_model_check]

/-- Counterexample to C6 as stated: with a valid accuracy list and
`batch_size = 0 < 1`, the reward generator raises no error at all — it
returns an empty batch. -/
theorem generator_accepts_zero_batch :
    create_simulated_reward_data (fun _ => []) [0] 0 = Except.ok [[]] ∧
      (0 : ℤ) < 1 := by
  constructor
  · rfl
  · decide

lemma normRow_length (cols : List ℕ) (step : List (ℕ × ℕ)) :
    (normRow cols step).length = cols.length := by
  simp [normRow]

lemma totalsRow_length (cols : List ℕ) (series : List (List (ℕ × ℕ))) :
    (totalsRow cols series).length = cols.length := by
  simp [totalsRow]

lemma map_getD_of_lt {α β : Type _} (l : List α) (f : α → β) (d : β)
    (da : α) (n : ℕ) (h : n < l.length) :
    (l.map f).getD n d = f (l.getD n da) := by
  rw [List.getD_eq_getElem _ _ (by simpa using h),
    List.getD_eq_getElem _ _ h, List.getElem_map]

lemma normRow_getD (cols : List ℕ) (step : List (ℕ × ℕ)) (j : ℕ)
    (hj : j < cols.length) :
    (normRow cols step).getD j 0 = (step.lookup (cols.getD j 0)).getD 0 := by
  rw [List.getD_eq_getElem _ _ (by simpa [normRow] using hj),
    List.getD_eq_getElem _ _ hj]
  simp [normRow]

lemma totalsRow_getD (cols : List ℕ) (series : List (List (ℕ × ℕ))) (j : ℕ)
    (hj : j < cols.length) :
    (totalsRow cols series).getD j 0 =
      (series.map fun step => ((step.lookup (cols.getD j 0)).getD 0)).sum := by
  rw [List.getD_eq_getElem _ _ (by simpa [totalsRow] using hj),
    List.getD_eq_getElem _ _ hj]
  simp [totalsRow]

/-- **C7.** Normalization: for any series of per-step mappings with possibly
heterogeneous key sets, the normalized table has one extra `Totals` row,
every row has the full column set, each time-step cell holds the step's
value for that column with missing keys filled by `0`, and the final
`Totals` row is the exact column-wise sum of all time-step rows. -/
theorem normalization_spec (series : List (List (ℕ × ℕ))) :
    (format_as_dataframe series).length = series.length + 1 ∧
      (∀ r ∈ format_as_dataframe series,
        r.length = (unionKeys series).length) ∧
      (∀ t j, t < series.length → j < (unionKeys series).length →
        ((format_as_dataframe series).getD t []).getD j 0 =
          ((series.getD t []).lookup ((unionKeys series).getD j 0)).getD 0) ∧
      (∀ j, j < (unionKeys series).length →
        ((format_as_dataframe series).getD series.length []).getD j 0 =
          (series.map fun step =>
            ((step.lookup ((unionKeys series).getD j 0)).getD 0)).sum) := by
  refine ⟨by simp [format_as_dataframe], ?_, ?_, ?_⟩
  · intro r hr
    rw [format_as_dataframe] at hr
    rcases List.mem_append.1 hr with hr | hr
    · obtain ⟨step, -, rfl⟩ := List.mem_map.1 hr
      exact normRow_length _ _
    · rw [List.mem_singleton.1 hr]
      exact totalsRow_length _ _
  · intro t j ht hj
    rw [format_as_dataframe, List.getD_append _ _ _ _ (by simpa using ht),
      map_getD_of_lt series (normRow (unionKeys series)) [] [] t ht,
      normRow_getD _ _ _ hj]
  · intro j hj
    rw [format_as_dataframe, List.getD_append_right _ _ _ _ (by simp)]
    simp only [List.length_map, Nat.sub_self, List.getD_cons_zero]
    exact totalsRow_getD _ _ _ hj

/-- Witness for C7 at a concrete heterogeneous series: step 0 mentions only
model 0, step 1 only model 1. -/
theorem normalization_spec_witness :
    (format_as_dataframe [[(0, 3)], [(1, 4)]]).length =
        ([[(0, 3)], [(1, 4)]] : List (List (ℕ × ℕ))).length + 1 ∧
      (∀ r ∈ format_as_dataframe [[(0, 3)], [(1, 4)]],
        r.length = (unionKeys [[(0, 3)], [(1, 4)]]).length) ∧
      (∀ t j, t < ([[(0, 3)], [(1, 4)]] : List (List (ℕ × ℕ))).length →
        j < (unionKeys [[(0, 3)], [(1, 4)]]).length →
        ((format_as_dataframe [[(0, 3)], [(1, 4)]]).getD t []).getD j 0 =
          ((([[(0, 3)], [(1, 4)]] : List (List (ℕ × ℕ))).getD t []).lookup
            ((unionKeys [[(0, 3)], [(1, 4)]]).getD j 0)).getD 0) ∧
      (∀ j, j < (unionKeys [[(0, 3)], [(1, 4)]]).length →
        ((format_as_dataframe [[(0, 3)], [(1, 4)]]).getD
            ([[(0, 3)], [(1, 4)]] : List (List (ℕ × ℕ))).length []).getD j 0 =
          (([[(0, 3)], [(1, 4)]] : List (List (ℕ × ℕ))).map fun step =>
            ((step.lookup ((unionKeys [[(0, 3)], [(1, 4)]]).getD j 0)).getD
              0)).sum) :=
  normalization_spec [[(0, 3)], [(1, 4)]]

lemma roundHalfEven_nonneg (x : ℚ) (hx : 0 ≤ x) : 0 ≤ roundHalfEven x := by
  have h0 : (0 : ℤ) ≤ ⌊x⌋ := Int.floor_nonneg.2 hx
  unfold roundHalfEven
  split
  · exact h0
  · split
    · omega
    · split <;> omega

lemma accs_getD_le_one (accs : List ℚ) (haccs : ∀ a ∈ accs, 0 ≤ a ∧ a ≤ 1)
    (k : ℕ) : accs.getD k 0 ≤ 1 := by
  by_cases hk : k < accs.length
  · exact (haccs _ (List.getD_eq_getElem accs 0 hk ▸ List.getElem_mem hk)).2
  · rw [List.getD_eq_default _ _ (not_lt.1 hk)]
    exact zero_le_one

lemma misclassCell_nonneg (count : ℕ) (acc : ℚ) (hacc : acc ≤ 1) :
    0 ≤ misclassCell count acc := by
  unfold misclassCell
  apply roundHalfEven_nonneg
  have h1 : (0 : ℚ) ≤ 1 - acc := by linarith
  exact mul_nonneg (Nat.cast_nonneg count) h1

lemma range_map_getD (g : ℕ → ℤ) (n j : ℕ) (hj : j < n) :
    ((List.range n).map g).getD j 0 = g j := by
  rw [map_getD_of_lt (List.range n) g 0 0 j (by simpa using hj),
    List.getD_eq_getElem _ _ (by simpa using hj)]
  simp

/-- **C8.** Every cell of the (scaled) misclassification table equals
`roundHalfEven(count * (1 - accuracy))` multiplied by
`scale_factor = (total_requests // model_count) // rewards_per_step`, and is
non-negative whenever all accuracies lie in `[0, 1]`; being an equation in
the inputs, the cell value is a deterministic function of the count, the
accuracy and the scale factor. -/
theorem misclassification_cell_spec (cols : List ℕ) (table : List (List ℕ))
    (accs : List ℚ) (tot M W : ℕ)
    (haccs : ∀ a ∈ accs, 0 ≤ a ∧ a ≤ 1) :
    ∀ t j, t < table.length → j < cols.length →
      ((scaled_misclassifications cols table accs
          (scale_factor tot M W)).getD t []).getD j 0 =
        roundHalfEven ((((table.getD t []).getD j 0 : ℕ) : ℚ) *
          (1 - accs.getD (cols.getD j 0) 0)) * (scale_factor tot M W : ℤ) ∧
      0 ≤ ((scaled_misclassifications cols table accs
          (scale_factor tot M W)).getD t []).getD j 0 := by
  intro t j ht hj
  have hcell : ((scaled_misclassifications cols table accs
      (scale_factor tot M W)).getD t []).getD j 0 =
      misclassCell ((table.getD t []).getD j 0)
        (accs.getD (cols.getD j 0) 0) * (scale_factor tot M W : ℤ) := by
    unfold scaled_misclassifications
    rw [map_getD_of_lt _ _ [] [] t
      (by simpa [create_misclassification_df] using ht)]
    unfold create_misclassification_df
    rw [map_getD_of_lt table _ [] [] t ht,
      map_getD_of_lt _ _ 0 0 j (by simpa using hj),
      range_map_getD _ _ _ hj]
  refine ⟨hcell, ?_⟩
  rw [hcell]
  exact mul_nonneg
    (misclassCell_nonneg _ _ (accs_getD_le_one accs haccs _))
    (Int.natCast_nonneg _)

/-- Witness for C8 at a concrete table: one model of accuracy 0, count 2,
scale factor 1. -/
theorem misclassification_cell_spec_witness :
    ((scaled_misclassifications [0] [[2]] [0]
        (scale_factor 1 1 1)).getD 0 []).getD 0 0 =
      roundHalfEven (((([[2]] : List (List ℕ)).getD 0 []).getD 0 0 : ℚ) *
        (1 - ([0] : List ℚ).getD (([0] : List ℕ).getD 0 0) 0)) *
        (scale_factor 1 1 1 : ℤ) ∧
      0 ≤ ((scaled_misclassifications [0] [[2]] [0]
        (scale_factor 1 1 1)).getD 0 []).getD 0 0 :=
  misclassification_cell_spec [0] [[2]] [0] 1 1 1 (by simp) 0 0 (by decide)
    (by decide)

lemma cumsumFrom_chain (l : List ℤ) (hl : ∀ x ∈ l, 0 ≤ x) :
    ∀ a : ℤ, List.Chain' (· ≤ ·) (cumsumFrom a l) := by
  induction l with
  | nil =>
    intro a
    rw [cumsumFrom]
    exact List.chain'_nil
  | cons x xs ih =>
    intro a
    rw [cumsumFrom, List.chain'_cons']
    refine ⟨?_, ih (fun y hy => hl y (List.mem_cons_of_mem x hy)) (a + x)⟩
    intro y hy
    cases xs with
    | nil =>
      rw [cumsumFrom] at hy
      simp at hy
    | cons z zs =>
      rw [cumsumFrom] at hy
      simp only [List.head?_cons, Option.mem_some_iff] at hy
      have hz : 0 ≤ z := hl z (List.mem_cons_of_mem x (List.mem_cons_self z zs))
      omega

/-- **C9.** The cumulative cost series — per-step row sums of the scaled
misclassification table (Totals row excluded), prefix-summed and multiplied
by the cost of failure — is non-decreasing whenever the accuracies lie in
`[0, 1]` and the cost is non-negative. -/
theorem cumulative_cost_monotone (cols : List ℕ) (table : List (List ℕ))
    (accs : List ℚ) (sf : ℕ) (cost : ℚ)
    (haccs : ∀ a ∈ accs, 0 ≤ a ∧ a ≤ 1) (hcost : 0 ≤ cost) :
    List.Chain' (· ≤ ·)
      (ts_cumsum (scaled_misclassifications cols table accs sf) cost) := by
  unfold ts_cumsum
  rw [List.chain'_map]
  have hrows : ∀ x ∈ ((scaled_misclassifications cols table accs sf).map
      List.sum).dropLast, 0 ≤ x := by
    intro x hx
    have hx' := List.dropLast_subset _ hx
    obtain ⟨row, hrow, rfl⟩ := List.mem_map.1 hx'
    apply List.sum_nonneg
    intro c hc
    unfold scaled_misclassifications at hrow
    obtain ⟨row0, hrow0, rfl⟩ := List.mem_map.1 hrow
    obtain ⟨c0, hc0, rfl⟩ := List.mem_map.1 hc
    unfold create_misclassification_df at hrow0
    obtain ⟨r, hr, rfl⟩ := List.mem_map.1 hrow0
    obtain ⟨j, hjr, rfl⟩ := List.mem_map.1 hc0
    exact mul_nonneg
      (misclassCell_nonneg _ _ (accs_getD_le_one accs haccs _))
      (Int.natCast_nonneg _)
  refine List.Chain'.imp ?_ (cumsumFrom_chain _ hrows 0)
  intro a b h
  have h' : (a : ℚ) ≤ (b : ℚ) := by exact_mod_cast h
  exact mul_le_mul_of_nonneg_right h' hcost

/-- Witness for C9 at a concrete table: one model of accuracy 0, two time
steps, unit cost. -/
theorem cumulative_cost_monotone_witness :
    List.Chain' (· ≤ ·)
      (ts_cumsum (scaled_misclassifications [0] [[1], [1]] [0] 1) 1) :=
  cumulative_cost_monotone [0] [[1], [1]] [0] 1 1 (by simp) zero_le_one

lemma misclassCell_one_half : misclassCell 1 (1/2) = 0 := by
  unfold misclassCell roundHalfEven
  rw [show ((1 : ℕ) : ℚ) * (1 - 1/2) = 1/2 by norm_num]
  rw [show ⌊(1 : ℚ)/2⌋ = 0 from
    Int.floor_eq_zero_iff.2 (Set.mem_Ico.2 ⟨by norm_num, by norm_num⟩)]
  norm_num

lemma misclassCell_two_half : misclassCell 2 (1/2) = 1 := by
  unfold misclassCell roundHalfEven
  rw [show ((2 : ℕ) : ℚ) * (1 - 1/2) = 1 by norm_num]
  rw [Int.floor_one]
  norm_num

/-- **C10.** The headline totals are computed by applying the rounded
misclassification formula to the Totals row of the allocation table (the
last row of the normalized table is the Totals row, and the headline sums
the misclassification transform of that last row); on the concrete input
with one model of accuracy 1/2 and one observation per step over two steps,
this yields 1, while the sum over time steps of the per-step rounded values
(the final entry of the cumulative series divided by the cost) yields 0 —
rounding does not commute with summation. -/
theorem headline_totals_divergence :
    (format_as_dataframe [[(0, 1)], [(0, 1)]]).getLastD [] =
        totalsRow (unionKeys [[(0, 1)], [(0, 1)]]) [[(0, 1)], [(0, 1)]] ∧
      total_misclassifications (unionKeys [[(0, 1)], [(0, 1)]])
          (format_as_dataframe [[(0, 1)], [(0, 1)]]) [1/2] 1 = 1 ∧
      per_step_total (unionKeys [[(0, 1)], [(0, 1)]])
          (format_as_dataframe [[(0, 1)], [(0, 1)]]) [1/2] 1 = 0 ∧
      total_misclassifications (unionKeys [[(0, 1)], [(0, 1)]])
          (format_as_dataframe [[(0, 1)], [(0, 1)]]) [1/2] 1 ≠
        per_step_total (unionKeys [[(0, 1)], [(0, 1)]])
          (format_as_dataframe [[(0, 1)], [(0, 1)]]) [1/2] 1 := by
  have hcols : unionKeys [[(0, 1)], [(0, 1)]] = [0] := by decide
  have hformat : format_as_dataframe [[(0, 1)], [(0, 1)]] = [[1], [1], [2]] := by
    decide
  have hcmd : create_misclassification_df [0] [[1], [1], [2]] [1/2] =
      [[misclassCell 1 (1/2)], [misclassCell 1 (1/2)],
        [misclassCell 2 (1/2)]] := rfl
  have htotal : total_misclassifications (unionKeys [[(0, 1)], [(0, 1)]])
      (format_as_dataframe [[(0, 1)], [(0, 1)]]) [1/2] 1 = 1 := by
    rw [hcols, hformat]
    unfold total_misclassifications scaled_misclassifications
    rw [hcmd, misclassCell_one_half, misclassCell_two_half]
    decide
  have hstep : per_step_total (unionKeys [[(0, 1)], [(0, 1)]])
      (format_as_dataframe [[(0, 1)], [(0, 1)]]) [1/2] 1 = 0 := by
    rw [hcols, hformat]
    unfold per_step_total scaled_misclassifications
    rw [hcmd, misclassCell_one_half, misclassCell_two_half]
    decide
  refine ⟨?_, htotal, hstep, ?_⟩
  · rw [hformat, hcols]
    decide
  · rw [htotal, hstep]
    decide

/-- Witness for the amended C5 at concrete inputs: two models, and for
Thompson Sampling the one-row batch of the counterexample trace. -/
theorem allocation_keys_amended_witness :
    (control_experiment ([] : List (List ℕ)) 2).map Prod.fst =
        List.range 2 ∧
      ((thompson_sampling_experiment (fun _ _ _ _ => 0) [[1, 1]] 2
          (fun _ => 0) (fun _ => 0)).1.map Prod.fst =
        (tsLoop (fun _ _ _ _ => 0) 2 [[1, 1]] 0 (fun _ => 0)
          (fun _ => 0)).1.dedup) ∧
      (∀ k, k ∈ (thompson_sampling_experiment (fun _ _ _ _ => 0) [[1, 1]] 2
          (fun _ => 0) (fun _ => 0)).1.map Prod.fst ↔
        k ∈ (tsLoop (fun _ _ _ _ => 0) 2 [[1, 1]] 0 (fun _ => 0)
          (fun _ => 0)).1) ∧
      (0 < 2 → ∀ k ∈ (thompson_sampling_experiment (fun _ _ _ _ => 0)
          [[1, 1]] 2 (fun _ => 0) (fun _ => 0)).1.map Prod.fst, k < 2) :=
  ⟨allocation_keys_amended.1 [] 2,
    (allocation_keys_amended.2 (fun _ _ _ _ => 0) [[1, 1]] 2 (fun _ => 0)
      (fun _ => 0)).1,
    (allocation_keys_amended.2 (fun _ _ _ _ => 0) [[1, 1]] 2 (fun _ => 0)
      (fun _ => 0)).2.1,
    (allocation_keys_amended.2 (fun _ _ _ _ => 0) [[1, 1]] 2 (fun _ => 0)
      (fun _ => 0)).2.2⟩

/-- Witness for the amended C6 at concrete inputs: a singleton accuracy list
and batch size 1. -/
theorem validation_amended_witness :
    ((create_simulated_reward_data (fun _ => []) [0] 1).isOk = true ↔
        ((∀ p ∈ ([0] : List ℚ), 0 ≤ p ∧ p ≤ 1) ∧
          (([0] : List ℚ) = [] ∨ (0 : ℤ) ≤ 1))) ∧
      (ts_model_check 1 [0] = true ↔ 1 = ([0] : List ℚ).length) :=
  ⟨validation_amended.1 (fun _ => []) [0] 1, validation_amended.2 1 [0]⟩
